import Mathlib

/-!
Verification of the RUSTSB poster pipeline.

Shallow embedding of the core pipeline of the repository:
- `src/services/geminiService.ts`: `extractJson`, `fetchUrlContent`, `analyzeUrl`
- `src/components/Poster.tsx`: the title-splitting `useMemo`, the image-state
  seeding `useEffect` and the paste/upload merge (`mergeCaptured`).

Strings are modelled as `List Char`.  JavaScript regular expressions used by
the source are compiled by hand into executable matchers that reproduce the
backtracking search order of the concrete patterns (greedy `\s*` tried
longest first, lazy `(.+?)` tried shortest first, leftmost start position
wins).  External collaborators (the two proxy fetches, the generative call,
`JSON.parse`) are modelled as explicit parameters/outcome values, exactly at
the interface the source reads from them.
-/

namespace RustSB

/-- Character model of the JavaScript regex class `\s` (ECMAScript WhiteSpace
together with LineTerminator), by code point. -/
def isJsSpace (c : Char) : Bool :=
  decide (c.toNat = 9 ∨ c.toNat = 10 ∨ c.toNat = 11 ∨ c.toNat = 12 ∨ c.toNat = 13 ∨
    c.toNat = 32 ∨ c.toNat = 160 ∨ c.toNat = 0x1680 ∨
    (0x2000 ≤ c.toNat ∧ c.toNat ≤ 0x200A) ∨
    c.toNat = 0x2028 ∨ c.toNat = 0x2029 ∨ c.toNat = 0x202F ∨ c.toNat = 0x205F ∨
    c.toNat = 0x3000 ∨ c.toNat = 0xFEFF)

/-- ECMAScript LineTerminator characters: `.` in a JS regex matches everything
except these. -/
def isLineTerm (c : Char) : Bool :=
  decide (c.toNat = 10 ∨ c.toNat = 13 ∨ c.toNat = 0x2028 ∨ c.toNat = 0x2029)

/-- ASCII letters and digits, the class `[a-zA-Z0-9]`. -/
def isAsciiAlphanum (c : Char) : Bool :=
  decide ((48 ≤ c.toNat ∧ c.toNat ≤ 57) ∨ (65 ≤ c.toNat ∧ c.toNat ≤ 90) ∨
    (97 ≤ c.toNat ∧ c.toNat ≤ 122))

/-- The class `[a-zA-Z0-9\s]` of the third title-splitting regex. -/
def isTitleClassChar (c : Char) : Bool :=
  isAsciiAlphanum c || isJsSpace c

/-- JS word characters, for the `\b` boundary test in the sanitizer regexes. -/
def isWordChar (c : Char) : Bool :=
  isAsciiAlphanum c || c.toNat = 95

/-- Model of `String.prototype.trim`: strip WhiteSpace/LineTerminator from
both ends. -/
def trimJs (s : List Char) : List Char :=
  (((s.dropWhile isJsSpace).reverse).dropWhile isJsSpace).reverse

/-- Length of the maximal `\s` run at the head of the list. -/
def wsLen : List Char → Nat
  | [] => 0
  | c :: cs => if isJsSpace c then wsLen cs + 1 else 0

/-! ## Title splitter (Poster.tsx, the `engName`/`cnName` useMemo)

Source, strategy 1:
`raw.match(/(?:【)?\s*(.+?)\s*·\s*(.+?)\s*(?:】)?$/)`.
The matcher below reproduces the JS search: positions are tried left to
right; the optional `【` is tried consumed first; each greedy `\s*` is tried
longest first; each lazy `(.+?)` is tried shortest first; `$` anchors the
end. -/

/-- Tail of strategy 1 after the second capture: `\s*(?:】)?$`.  Greedy `\s*`
followed by an optional `】` and the end anchor holds exactly when skipping
whitespace leaves nothing or exactly one `】`. -/
def isWsOptBracketEnd (u : List Char) : Bool :=
  let v := u.dropWhile isJsSpace
  v = ([] : List Char) || v = ['】']

/-- Lazy second capture `(.+?)` before `\s*(?:】)?$`: shortest nonempty run of
non-LineTerminator characters whose remainder satisfies the tail. -/
def lazyG : List Char → Option (List Char)
  | [] => none
  | c :: cs =>
    if isLineTerm c then none
    else if isWsOptBracketEnd cs then some [c]
    else match lazyG cs with
      | some g => some (c :: g)
      | none => none

/-- Greedy `\s*` before the second capture: whitespace-prefix lengths are
tried from `k` downwards. -/
def tailLoop (s : List Char) : Nat → Option (List Char)
  | 0 => lazyG s
  | k + 1 =>
    match lazyG (s.drop (k + 1)) with
    | some g => some g
    | none => tailLoop s k

/-- Matches `\s*(.+?)\s*(?:】)?$` against the text following the `·`,
returning the second capture group. -/
def matchTail (s : List Char) : Option (List Char) :=
  tailLoop s (wsLen s)

/-- Matches `\s*·` at the head of `r` (greedy `\s*` then the literal dot);
returns the text after the dot. -/
def dotAfterWs (r : List Char) : Option (List Char) :=
  match r.dropWhile isJsSpace with
  | c :: rest => if c = '·' then some rest else none
  | [] => none

/-- Lazy first capture `(.+?)` followed by `\s*·` and the tail: shortest
nonempty run of non-LineTerminator characters after which `\s*·` and the
rest of the pattern match.  Returns both capture groups. -/
def lazyC : List Char → Option (List Char × List Char)
  | [] => none
  | c :: cs =>
    if isLineTerm c then none
    else
      match (match dotAfterWs cs with
             | some r => (matchTail r).map (fun g2 => ([c], g2))
             | none => none) with
      | some res => some res
      | none =>
        match lazyC cs with
        | some (g1, g2) => some (c :: g1, g2)
        | none => none

/-- Greedy leading `\s*` of strategy 1: prefix lengths tried from `k` down
to `0`, the rest matched by `lazyC`. -/
def bLoop (u : List Char) : Nat → Option (List Char × List Char)
  | 0 => lazyC u
  | k + 1 =>
    match lazyC (u.drop (k + 1)) with
    | some r => some r
    | none => bLoop u k

/-- Matches `\s*(.+?)\s*·\s*(.+?)\s*(?:】)?$` at the start of `u`. -/
def frontMatch (u : List Char) : Option (List Char × List Char) :=
  bLoop u (wsLen u)

/-- Matches the whole strategy-1 pattern at one start position: the optional
`【` is greedy, so the bracket-consuming alternative is tried first. -/
def matchDotAt : List Char → Option (List Char × List Char)
  | [] => none
  | c :: cs =>
    if c = '【' then
      match frontMatch cs with
      | some r => some r
      | none => frontMatch (c :: cs)
    else frontMatch (c :: cs)

/-- `raw.match(/(?:【)?\s*(.+?)\s*·\s*(.+?)\s*(?:】)?$/)`: the JS search tries
start positions left to right and returns the first full match. -/
def matchDot : List Char → Option (List Char × List Char)
  | [] => none
  | c :: cs =>
    match matchDotAt (c :: cs) with
    | some r => some r
    | none => matchDot cs

/-! Strategy 2 of the splitter: `raw.includes(' - ')`, `raw.split(' - ')`,
`parts[0].trim()`, `parts.slice(1).join(' - ').trim()`. -/

/-- The literal separator `" - "`. -/
def dashSep : List Char := [' ', '-', ' ']

/-- Leftmost occurrence of `" - "`: text before and text after it. -/
def findDash : List Char → Option (List Char × List Char)
  | [] => none
  | c :: cs =>
    if dashSep.isPrefixOf (c :: cs) then some ([], cs.drop 2)
    else
      match findDash cs with
      | some (pre, post) => some (c :: pre, post)
      | none => none

/-- Model of `String.prototype.includes` for a fixed needle. -/
def containsSub (s sub : List Char) : Bool :=
  match s with
  | [] => sub.isPrefixOf ([] : List Char)
  | c :: cs => sub.isPrefixOf (c :: cs) || containsSub cs sub

/-- Worker for `String.prototype.split(' - ')`, accumulating the current
field in reverse. -/
def splitDashAux : List Char → List Char → List (List Char)
  | acc, [] => [acc.reverse]
  | acc, c :: cs =>
    if dashSep.isPrefixOf (c :: cs) then acc.reverse :: splitDashAux [] (cs.drop 2)
    else splitDashAux (c :: acc) cs
termination_by _ s => s.length
decreasing_by
  all_goals simp only [List.length_drop, List.length_cons]
  all_goals omega

/-- `raw.split(' - ')`. -/
def splitDash (s : List Char) : List (List Char) :=
  splitDashAux [] s

/-- `parts.join(' - ')`. -/
def joinDash : List (List Char) → List Char
  | [] => []
  | [x] => x
  | x :: y :: xs => x ++ dashSep ++ joinDash (y :: xs)

/-! Strategy 3 of the splitter: `raw.match(/^([a-zA-Z0-9\s]+)\s*-\s*(.+)$/)`,
anchored at the start; the class run is greedy (longest first). -/

/-- Maximal run of `[a-zA-Z0-9\s]` characters at the head. -/
def classRunLen : List Char → Nat
  | [] => 0
  | c :: cs => if isTitleClassChar c then classRunLen cs + 1 else 0

/-- After the `-`: `\s*(.+)$` with greedy `\s*` tried longest first; the
capture is the remainder, which must be nonempty and free of
LineTerminators. -/
def g2Loop (r2 : List Char) : Nat → Option (List Char)
  | 0 =>
    if r2 ≠ [] && r2.all (fun c => !isLineTerm c) then some r2 else none
  | k + 1 =>
    let g := r2.drop (k + 1)
    if g ≠ [] && g.all (fun c => !isLineTerm c) then some g
    else g2Loop r2 k

/-- Greedy class run tried from length `k` down to `1`; for each candidate
the rest must match `\s*-\s*(.+)$`. -/
def hyphenLoop (s : List Char) : Nat → Option (List Char × List Char)
  | 0 => none
  | k + 1 =>
    (match (s.drop (k + 1)).dropWhile isJsSpace with
     | '-' :: r2 =>
       match g2Loop r2 (wsLen r2) with
       | some g2 => some (s.take (k + 1), g2)
       | none => none
     | _ => none).elim (hyphenLoop s k) some

/-- `raw.match(/^([a-zA-Z0-9\s]+)\s*-\s*(.+)$/)` returning both captures. -/
def matchHyphen (s : List Char) : Option (List Char × List Char) :=
  hyphenLoop s (classRunLen s)

/-- The derived `TitleParts` record (`engName`, `cnName`). -/
structure TitleParts where
  engName : List Char
  cnName : List Char
deriving DecidableEq, Repr

/-- The title-splitting `useMemo` of `Poster.tsx` (lines 353-364): trim the
name, try the `【eng·cn】` dot pattern, then the `" - "` split, then the
leading-alphanumeric bare-hyphen pattern, else everything is `cnName`. -/
def splitTitle (name : List Char) : TitleParts :=
  match matchDot (trimJs name) with
  | some (g1, g2) => ⟨trimJs g1, trimJs g2⟩
  | none =>
    if containsSub (trimJs name) dashSep then
      match splitDash (trimJs name) with
      | [] => ⟨[], trimJs name⟩
      | p :: ps => ⟨trimJs p, trimJs (joinDash ps)⟩
    else
      match matchHyphen (trimJs name) with
      | some (g1, g2) => ⟨trimJs g1, trimJs g2⟩
      | none => ⟨[], trimJs name⟩

/-! ## Content sanitizer (geminiService.ts `fetchUrlContent`, lines 27-31)

The four chained `replace` calls use global regexes of the shape
`/<tag\b[^>]*>([\s\S]*?)<\/tag>/gim` (for `script`, `style`, `svg`) and
`/<!--[\s\S]*?-->/g`.  `[^>]*` greedily runs to the first `>`, and the lazy
body ends at the first case-insensitive `</tag>`; if no closing tag exists
the scan advances one character. -/

/-- ASCII case folding on code points (what the `i` regex flag does on the
ASCII tag names involved here). -/
def lowerCode (c : Char) : Nat :=
  if 65 ≤ c.toNat ∧ c.toNat ≤ 90 then c.toNat + 32 else c.toNat

/-- Case-insensitive character comparison (the `i` regex flag). -/
def charCI (a b : Char) : Bool := decide (lowerCode a = lowerCode b)

/-- Case-insensitive prefix test. -/
def prefixCI : List Char → List Char → Bool
  | [], _ => true
  | _ :: _, [] => false
  | a :: as, b :: bs => charCI a b && prefixCI as bs

/-- The `\b` test after the tag name: next character is not a word char. -/
def boundaryOk : List Char → Bool
  | [] => true
  | c :: _ => !isWordChar c

/-- Index of the first `>` (the extent of `[^>]*>`). -/
def gtIdx : List Char → Option Nat
  | [] => none
  | c :: cs => if c = '>' then some 0 else (gtIdx cs).map (fun n => n + 1)

/-- Index of the first case-insensitive occurrence of `pat`. -/
def closeIdx (pat : List Char) : List Char → Option Nat
  | [] => none
  | c :: cs => if prefixCI pat (c :: cs) then some 0 else (closeIdx pat cs).map (fun n => n + 1)

/-- Length of the full open-tag match `<tag\b[^>]*>` at the start of `s`,
if any. -/
def openLen (tag : List Char) (s : List Char) : Option Nat :=
  match s with
  | '<' :: rest =>
    if prefixCI tag rest && boundaryOk (rest.drop tag.length) then
      match gtIdx (rest.drop tag.length) with
      | some g => some (1 + tag.length + (g + 1))
      | none => none
    else none
  | _ => none

/-- One global-replace pass deleting every `<tag ...>...</tag>` block (the
close tag matched case-insensitively, the body lazily). -/
def removeTagBlocks (tag : List Char) : List Char → List Char
  | [] => []
  | c :: cs =>
    match openLen tag (c :: cs) with
    | some o =>
      match closeIdx ('<' :: '/' :: (tag ++ ['>'])) ((c :: cs).drop o) with
      | some j => removeTagBlocks tag ((c :: cs).drop (o + (j + (tag.length + 3))))
      | none => c :: removeTagBlocks tag cs
    | none => c :: removeTagBlocks tag cs
termination_by s => s.length
decreasing_by
  all_goals simp only [List.length_drop, List.length_cons]
  all_goals omega

/-- The literal `<!--`. -/
def commentOpen : List Char := ['<', '!', '-', '-']

/-- The literal `-->`. -/
def commentClose : List Char := ['-', '-', '>']

/-- Global-replace pass for `/<!--[\s\S]*?-->/g`. -/
def removeComments : List Char → List Char
  | [] => []
  | c :: cs =>
    if commentOpen.isPrefixOf (c :: cs) then
      match closeIdx commentClose ((c :: cs).drop 4) with
      | some j => removeComments ((c :: cs).drop (4 + (j + 3)))
      | none => c :: removeComments cs
    else c :: removeComments cs
termination_by s => s.length
decreasing_by
  all_goals simp only [List.length_drop, List.length_cons]
  all_goals omega

/-- Tag name `script`. -/
def scriptTag : List Char := ['s', 'c', 'r', 'i', 'p', 't']

/-- Tag name `style`. -/
def styleTag : List Char := ['s', 't', 'y', 'l', 'e']

/-- Tag name `svg`. -/
def svgTag : List Char := ['s', 'v', 'g']

/-- The sanitizer chain of `fetchUrlContent`, in source order: script blocks,
then style blocks, then HTML comments, then svg blocks. -/
def sanitizeHtml (html : List Char) : List Char :=
  removeTagBlocks svgTag (removeComments (removeTagBlocks styleTag (removeTagBlocks scriptTag html)))

/-! ## Page retrieval (geminiService.ts `fetchUrlContent`, lines 18-50)

The two proxy fetches are external collaborators; an environment value
records, for each, whether the awaited fetch threw or completed with an
`ok` flag and a body.  The model also returns the list of fetches that were
actually attempted, in order. -/

/-- Outcome of one awaited proxy fetch. -/
inductive FetchOutcome where
  | threw
  | completed (ok : Bool) (body : List Char)
deriving DecidableEq, Repr

/-- The two ranked proxy collaborators for one retrieval. -/
structure RetrievalEnv where
  proxyA : FetchOutcome
  jinaB : FetchOutcome
deriving DecidableEq, Repr

/-- Network operations the pipeline can attempt. -/
inductive NetCall where
  | fetchA
  | fetchB
  | genCall
deriving DecidableEq, Repr

/-- `fetchUrlContent`: try the raw-HTML proxy; on `ok` sanitize and truncate
to 150000 chars; on a non-ok status fall back to the Jina proxy and truncate
to 50000 chars; any throw or double failure is caught and yields `""`.
Returns the result together with the fetches attempted. -/
def fetchUrlContent (env : RetrievalEnv) : List Char × List NetCall :=
  match env.proxyA with
  | .threw => ([], [NetCall.fetchA])
  | .completed ok body =>
    if ok then ((sanitizeHtml body).take 150000, [NetCall.fetchA])
    else
      match env.jinaB with
      | .threw => ([], [NetCall.fetchA, NetCall.fetchB])
      | .completed okB bodyB =>
        if okB then (bodyB.take 50000, [NetCall.fetchA, NetCall.fetchB])
        else ([], [NetCall.fetchA, NetCall.fetchB])

/-! ## JSON values and a model of `JSON.parse` -/

/-- JSON values as produced by `JSON.parse`. -/
inductive Json where
  | null
  | bool (b : Bool)
  | num (n : Int)
  | str (s : List Char)
  | arr (xs : List Json)
  | obj (fields : List (List Char × Json))
deriving Repr

/-- The character `{`. -/
def lbraceChar : Char := Char.ofNat 123

/-- The character `}`. -/
def rbraceChar : Char := Char.ofNat 125

/-- Body of a JSON string up to the closing quote (escape sequences are
outside this model's fragment). -/
def readStr : List Char → Option (List Char × List Char)
  | [] => none
  | c :: cs =>
    if c = '"' then some ([], cs)
    else if c = '\\' then none
    else (readStr cs).map (fun p => (c :: p.1, p.2))

/-- Numeric value of a digit run. -/
def digitsToNat (ds : List Char) : Nat :=
  ds.foldl (fun a c => a * 10 + (c.toNat - 48)) 0

mutual

/-- Recursive-descent value parser, fuelled; a model of `JSON.parse` on the
fragment of JSON used by concrete inputs in this development (objects,
arrays, escape-free strings, integers, literals). -/
def parseVal : Nat → List Char → Option (Json × List Char)
  | 0, _ => none
  | fuel + 1, s =>
    match s.dropWhile isJsSpace with
    | [] => none
    | c :: r =>
      if c = '"' then (readStr r).map (fun p => (Json.str p.1, p.2))
      else if c = lbraceChar then
        match r.dropWhile isJsSpace with
        | d :: r2 =>
          if d = rbraceChar then some (Json.obj [], r2)
          else (parseMembers fuel r).map (fun p => (Json.obj p.1, p.2))
        | [] => none
      else if c = '[' then
        match r.dropWhile isJsSpace with
        | d :: r2 =>
          if d = ']' then some (Json.arr [], r2)
          else (parseItems fuel r).map (fun p => (Json.arr p.1, p.2))
        | [] => none
      else if c = 't' then
        if ['r', 'u', 'e'].isPrefixOf r then some (Json.bool true, r.drop 3) else none
      else if c = 'f' then
        if ['a', 'l', 's', 'e'].isPrefixOf r then some (Json.bool false, r.drop 4) else none
      else if c = 'n' then
        if ['u', 'l', 'l'].isPrefixOf r then some (Json.null, r.drop 3) else none
      else if c = '-' then
        match r.takeWhile Char.isDigit with
        | [] => none
        | ds => some (Json.num (-(digitsToNat ds : Int)), r.dropWhile Char.isDigit)
      else if c.isDigit then
        some (Json.num (digitsToNat ((c :: r).takeWhile Char.isDigit)),
              (c :: r).dropWhile Char.isDigit)
      else none

/-- Object members after `{` (nonempty case). -/
def parseMembers : Nat → List Char → Option (List (List Char × Json) × List Char)
  | 0, _ => none
  | fuel + 1, s =>
    match s.dropWhile isJsSpace with
    | c :: r =>
      if c = '"' then
        match readStr r with
        | some (k, r2) =>
          match r2.dropWhile isJsSpace with
          | ':' :: r3 =>
            match parseVal fuel r3 with
            | some (v, r4) =>
              match r4.dropWhile isJsSpace with
              | ',' :: r5 => (parseMembers fuel r5).map (fun p => ((k, v) :: p.1, p.2))
              | d :: r5 => if d = rbraceChar then some ([(k, v)], r5) else none
              | [] => none
            | none => none
          | _ => none
        | none => none
      else none
    | [] => none

/-- Array items after `[` (nonempty case). -/
def parseItems : Nat → List Char → Option (List Json × List Char)
  | 0, _ => none
  | fuel + 1, s =>
    match parseVal fuel s with
    | some (v, r) =>
      match r.dropWhile isJsSpace with
      | ',' :: r2 => (parseItems fuel r2).map (fun p => (v :: p.1, p.2))
      | ']' :: r2 => some ([v], r2)
      | _ => none
    | none => none

end

/-- Model of `JSON.parse`: parse one value and require only trailing
whitespace. -/
def parseJsonSimple (s : List Char) : Option Json :=
  match parseVal (s.length + 1) s with
  | some (v, rest) => if rest.dropWhile isJsSpace = [] then some v else none
  | none => none

/-! ## Response parsing (geminiService.ts `extractJson`, lines 4-15) -/

/-- The backtick character. -/
def backtickChar : Char := Char.ofNat 96

/-- The literal ` ```json `. -/
def fenceJson : List Char :=
  [backtickChar, backtickChar, backtickChar, 'j', 's', 'o', 'n']

/-- The literal ` ``` `. -/
def fenceClose : List Char :=
  [backtickChar, backtickChar, backtickChar]

/-- Lazy interior `([\s\S]*?)` before `\s*` and the closing fence: shortest
prefix after which skipping whitespace lands on ` ``` `. -/
def interiorLoop : List Char → Option (List Char)
  | [] => none
  | c :: cs =>
    if fenceClose.isPrefixOf ((c :: cs).dropWhile isJsSpace) then some []
    else (interiorLoop cs).map (fun i => c :: i)

/-- `text.match(/```json\s*([\s\S]*?)\s*```/)`: leftmost position where the
literal ` ```json ` matches and a closing fence exists; returns the captured
interior. -/
def findFence : List Char → Option (List Char)
  | [] => none
  | c :: cs =>
    if fenceJson.isPrefixOf (c :: cs) then
      match interiorLoop (((c :: cs).drop 7).dropWhile isJsSpace) with
      | some i => some i
      | none => findFence cs
    else findFence cs

/-- A thrown JavaScript error value, as far as `analyzeUrl`'s catch block
reads it: an optional `status` and a `message`. -/
structure JsError where
  status : Option Nat
  message : String
deriving DecidableEq, Repr

/-- Message of the `MalformedJson` throw site in `extractJson`. -/
def malformedJsonMsg : String := "解析 AI 响应失败，请重试。"

/-- Message of the `EmptyResponse` throw site in `analyzeUrl`. -/
def emptyResponseMsg : String := "AI 未返回内容"

/-- Message of the `MissingCredential` throw site in `analyzeUrl`. -/
def missingKeyMsg : String := "API Key 缺失。请检查 Vercel 环境变量设置。"

/-- Message of the `RateLimited` rethrow in the catch block. -/
def rateLimitedMsg : String := "免费版 API 请求太快了。请稍等 10 秒钟再试。"

/-- Message of the `ModelUnavailable` rethrow in the catch block (the source
quotes the model name; the quote characters are omitted in this model). -/
def modelUnavailableMsg : String :=
  "模型 gemini-3-flash-preview 不可用 (404)。请检查您的 API Key 是否支持该模型，或者在 Google AI Studio 中启用它。"

/-- Fallback message of `error.message || "生成失败，请重试。"`. -/
def genericFailMsg : String := "生成失败，请重试。"

/-- `extractJson`, parametric in the platform `JSON.parse`: prefer the fenced
block's interior, else parse the whole text; a parse failure in either
branch throws the MalformedJson error. -/
def extractJson (parse : List Char → Option Json) (text : List Char) : Except JsError Json :=
  match findFence text with
  | some i =>
    match parse i with
    | some v => Except.ok v
    | none => Except.error ⟨none, malformedJsonMsg⟩
  | none =>
    match parse text with
    | some v => Except.ok v
    | none => Except.error ⟨none, malformedJsonMsg⟩

/-! ## analyzeUrl (geminiService.ts lines 52-179) -/

/-- Ambient configuration: the `process.env` and `import.meta.env` slots. -/
structure EnvCfg where
  procEnv : String → Option String
  metaEnv : String → Option String

/-- `getEnvVar`: probe `process.env[key]`, then `import.meta.env[key]`,
requiring a truthy (nonempty) value. -/
def getEnvVar (cfg : EnvCfg) (key : String) : Option String :=
  let metaVal :=
    match cfg.metaEnv key with
    | some v => if v = "" then none else some v
    | none => none
  match cfg.procEnv key with
  | some v => if v = "" then metaVal else some v
  | none => metaVal

/-- `getEnvVar('API_KEY') || getEnvVar('VITE_API_KEY') ||
getEnvVar('REACT_APP_API_KEY')`. -/
def resolveApiKey (cfg : EnvCfg) : Option String :=
  match getEnvVar cfg "API_KEY" with
  | some v => some v
  | none =>
    match getEnvVar cfg "VITE_API_KEY" with
    | some v => some v
    | none => getEnvVar cfg "REACT_APP_API_KEY"

/-- Outcome of the awaited `ai.models.generateContent` call: either the
await threw a JS error, or it returned a response whose `text` may be
absent. -/
inductive GenOutcome where
  | threw (e : JsError)
  | returned (text : Option String)
deriving DecidableEq, Repr

/-- JS falsiness of `response.text` (`undefined` or `""`). -/
def jsFalsyText : Option String → Bool
  | none => true
  | some s => s = ""

/-- Does the message contain the substring `"429"`. -/
def contains429 (msg : String) : Bool :=
  containsSub msg.toList ['4', '2', '9']

/-- The catch block of `analyzeUrl`: status 429 or a message containing
"429" is rethrown as the rate-limit error; status 404 as the
model-unavailable error; anything else surfaces its message (or the generic
fallback when the message is empty). -/
def classifyCatch (e : JsError) : JsError :=
  if e.status = some 429 || contains429 e.message then ⟨none, rateLimitedMsg⟩
  else if e.status = some 404 then ⟨none, modelUnavailableMsg⟩
  else ⟨none, if e.message = "" then genericFailMsg else e.message⟩

/-- `analyzeUrl`, parametric in `JSON.parse` and the external collaborators:
resolve the credential (failing before any network call), retrieve the page,
make the generative call, check the text for falsiness, extract JSON, and
classify anything thrown inside the try block.  Returns the result together
with the network calls attempted, in order. -/
def analyzeUrl (parse : List Char → Option Json) (cfg : EnvCfg) (env : RetrievalEnv)
    (gen : GenOutcome) : Except JsError Json × List NetCall :=
  match resolveApiKey cfg with
  | none => (Except.error ⟨none, missingKeyMsg⟩, [])
  | some _ =>
    let fetched := fetchUrlContent env
    let calls := fetched.2 ++ [NetCall.genCall]
    match gen with
    | .threw e => (Except.error (classifyCatch e), calls)
    | .returned txt =>
      if jsFalsyText txt then (Except.error (classifyCatch ⟨none, emptyResponseMsg⟩), calls)
      else
        match extractJson parse (txt.getD "").toList with
        | Except.ok v => (Except.ok v, calls)
        | Except.error e => (Except.error (classifyCatch e), calls)

/-! ## Poster image state (Poster.tsx, lines 205-211 and 236-241) -/

/-- The seeding `useEffect`: when `data.imageUrls` is nonempty the local
image state is set to it unchanged, else cleared. -/
def seedLocalImages (imageUrls : List String) : List String :=
  if imageUrls.length > 0 then imageUrls else []

/-- The paste/upload merge: `[...prev, ...newImages].slice(0, 3)`. -/
def mergeCaptured (prev incoming : List String) : List String :=
  (prev ++ incoming).take 3

/-! ## Spec-side schema validator -/

/-- Is the value a JSON string. -/
def isJsonStr : Json → Bool
  | .str _ => true
  | _ => false

/-- Is the value a JSON array of strings. -/
def isJsonStrArr : Json → Bool
  | .arr xs => xs.all isJsonStr
  | _ => false

/-- First binding of a key in a JSON object. -/
def jsonField (fields : List (List Char × Json)) (k : List Char) : Option Json :=
  match fields with
  | [] => none
  | (k2, v) :: rest => if k2 = k then some v else jsonField rest k

/-- Modelled from the spec: the ResponseParser/Validator shape check of
§4.5 - all seven PosterRecord fields present, `features`/`imageUrls`
sequences of strings, the rest strings.  No runtime counterpart exists in
`src`; `analyzeUrl` returns the parsed value without this check. -/
def specSchemaValidate (j : Json) : Bool :=
  match j with
  | .obj fs =>
    (jsonField fs "name".toList).elim false isJsonStr &&
    (jsonField fs "tag".toList).elim false isJsonStr &&
    (jsonField fs "shortDescription".toList).elim false isJsonStr &&
    (jsonField fs "price".toList).elim false isJsonStr &&
    (jsonField fs "summary".toList).elim false isJsonStr &&
    (jsonField fs "features".toList).elim false isJsonStrArr &&
    (jsonField fs "imageUrls".toList).elim false isJsonStrArr
  | _ => false

/-! ## Auxiliary notions used in theorem statements -/

/-- A character that cannot interact with any part of the strategy-1 title
pattern: not whitespace and none of `·`, `【`, `】`. -/
def plainChar (c : Char) : Prop :=
  isJsSpace c = false ∧ c ≠ '·' ∧ c ≠ '【' ∧ c ≠ '】'

instance (c : Char) : Decidable (plainChar c) := by
  unfold plainChar
  infer_instance

/-- The literal `<script>` as produced by the open-tag regex with empty
attribute run. -/
def scriptOpen : List Char := '<' :: (scriptTag ++ ['>'])

/-- The literal `</script>`. -/
def scriptClose : List Char := '<' :: '/' :: (scriptTag ++ ['>'])

/-- A deployment with `process.env.API_KEY = "k"` and nothing else. -/
def cfgWithKey : EnvCfg :=
  ⟨fun k => if k = "API_KEY" then some "k" else none, fun _ => none⟩

/-- A deployment with no environment slots at all. -/
def cfgNoKey : EnvCfg := ⟨fun _ => none, fun _ => none⟩

/-- A retrieval environment in which both proxy fetches throw. -/
def envBothThrow : RetrievalEnv := ⟨.threw, .threw⟩

/-! # Helper lemmas -/

theorem charToNat_inj {a b : Char} (h : a.toNat = b.toNat) : a = b :=
  Char.ext (UInt32.ext h)

theorem notWs_notLT {c : Char} (h : isJsSpace c = false) : isLineTerm c = false := by
  simp only [isJsSpace, decide_eq_false_iff_not] at h
  simp only [isLineTerm, decide_eq_false_iff_not]
  omega

theorem alnum_not_ws {c : Char} (h : isAsciiAlphanum c = true) : isJsSpace c = false := by
  simp only [isAsciiAlphanum, decide_eq_true_eq] at h
  simp only [isJsSpace, decide_eq_false_iff_not]
  omega

theorem plainChar_not_ws {c : Char} (h : plainChar c) : isJsSpace c = false := h.1

theorem plainChar_not_lt {c : Char} (h : plainChar c) : isLineTerm c = false :=
  notWs_notLT h.1

/-! # C2: image-capture cap -/

/-- C2 counterexample: the seeding `useEffect` copies `data.imageUrls` into
the rendered image state without truncation, so a four-element `imageUrls`
yields a held sequence of length 4, contradicting the claim that the
captured sequence never exceeds length 3 and that the cap governs the
initial seeding. -/
theorem C2_seed_exceeds_cap :
    seedLocalImages ["a", "b", "c", "d"] = ["a", "b", "c", "d"] ∧
    ¬(seedLocalImages ["a", "b", "c", "d"]).length ≤ 3 := by
  constructor
  · rfl
  · decide

/-- C2 amended: the paste/upload merge appends incoming images after the
existing ones and truncates to the first 3 (in particular
`mergeCaptured [a,b] [c,d,e] = [a,b,c]`), but the initial seeding from the
AI-supplied `imageUrls` stores the list unchanged, without applying the
cap. -/
theorem C2_merge_cap_amended :
    (∀ prev incoming : List String,
       (mergeCaptured prev incoming).length ≤ 3 ∧
       mergeCaptured prev incoming <+: prev ++ incoming) ∧
    (∀ a b c d e : String, mergeCaptured [a, b] [c, d, e] = [a, b, c]) ∧
    (∀ urls : List String, seedLocalImages urls = urls) := by
  refine ⟨fun prev incoming => ⟨?_, List.take_prefix _ _⟩, fun a b c d e => rfl, fun urls => ?_⟩
  · simp only [mergeCaptured, List.length_take]
    omega
  · unfold seedLocalImages
    split
    · rfl
    · rename_i h
      have h0 : urls.length = 0 := by omega
      rw [List.length_eq_zero.mp h0]

/-! # C4 and C10: retrieval fallback -/

/-- C4: retrieval is total (the model returns a string for every outcome of
the two collaborators); Strategy A is always attempted first; a non-ok
status from Strategy A causes Strategy B to be attempted; and if both
strategies fail (throw or non-ok status) the result is the empty string. -/
theorem C4_retrieve_never_raises :
    ∀ env : RetrievalEnv,
      ((fetchUrlContent env).2 = [NetCall.fetchA] ∨
        (fetchUrlContent env).2 = [NetCall.fetchA, NetCall.fetchB]) ∧
      (∀ body, env.proxyA = FetchOutcome.completed false body →
        (fetchUrlContent env).2 = [NetCall.fetchA, NetCall.fetchB]) ∧
      ((env.proxyA = FetchOutcome.threw ∨ ∃ b, env.proxyA = FetchOutcome.completed false b) →
        (env.jinaB = FetchOutcome.threw ∨ ∃ b, env.jinaB = FetchOutcome.completed false b) →
        (fetchUrlContent env).1 = []) := by
  rintro ⟨a, b⟩
  refine ⟨?_, ?_, ?_⟩
  · cases a with
    | threw => left; rfl
    | completed ok body =>
      cases ok with
      | true => left; rfl
      | false => cases b with
        | threw => right; rfl
        | completed okB bodyB => cases okB <;> (right; rfl)
  · intro body hab
    cases a with
    | threw => cases hab
    | completed ok body2 =>
      injection hab with h1 h2
      subst h1
      cases b with
      | threw => rfl
      | completed okB bodyB => cases okB <;> rfl
  · intro ha hb
    cases a with
    | threw =>
      cases b with
      | threw => rfl
      | completed okB bodyB =>
        rcases hb with hb | ⟨b2, hb⟩
        · cases hb
        · injection hb with h1 h2
          subst h1
          rfl
    | completed ok body2 =>
      rcases ha with ha | ⟨a2, ha⟩
      · cases ha
      · injection ha with h1 h2
        subst h1
        cases b with
        | threw => rfl
        | completed okB bodyB =>
          rcases hb with hb | ⟨b2, hb⟩
          · cases hb
          · injection hb with h1 h2
            subst h1
            rfl

/-- C4 witness: with both proxies completing non-ok, both strategies are
attempted in order and the result is the empty string. -/
theorem C4_witness :
    (fetchUrlContent ⟨FetchOutcome.completed false ['e'], FetchOutcome.completed false ['f']⟩).2 =
      [NetCall.fetchA, NetCall.fetchB] ∧
    (fetchUrlContent ⟨FetchOutcome.completed false ['e'], FetchOutcome.completed false ['f']⟩).1 = [] :=
  ⟨(C4_retrieve_never_raises _).2.1 ['e'] rfl,
   (C4_retrieve_never_raises _).2.2 (Or.inr ⟨['e'], rfl⟩) (Or.inr ⟨['f'], rfl⟩)⟩

/-- C10: when Strategy A's fetch throws, retrieval returns the empty string
and Strategy B is never attempted; Strategy B is attempted exactly when
Strategy A completes with a non-ok status. -/
theorem C10_a_throw_skips_b :
    ∀ env : RetrievalEnv,
      (env.proxyA = FetchOutcome.threw → fetchUrlContent env = ([], [NetCall.fetchA])) ∧
      (NetCall.fetchB ∈ (fetchUrlContent env).2 ↔
        ∃ body, env.proxyA = FetchOutcome.completed false body) := by
  rintro ⟨a, b⟩
  constructor
  · intro h
    cases h
    rfl
  · cases a with
    | threw => simp [fetchUrlContent]
    | completed ok body =>
      cases ok with
      | true => simp [fetchUrlContent]
      | false => cases b with
        | threw => simp [fetchUrlContent]
        | completed okB bodyB => cases okB <;> simp [fetchUrlContent]

/-- C10 witness: Strategy A throws while Strategy B would have succeeded;
the result is still the empty string and only Strategy A was attempted. -/
theorem C10_witness :
    fetchUrlContent ⟨FetchOutcome.threw, FetchOutcome.completed true ['p']⟩ =
      ([], [NetCall.fetchA]) :=
  (C10_a_throw_skips_b _).1 rfl

/-! # C8: missing credential -/

/-- C8: when no credential resolves from any environment slot, `analyzeUrl`
fails with the missing-credential error and attempts no network call at all
(neither page retrieval nor the generative call). -/
theorem C8_missing_credential_preflight :
    ∀ (parse : List Char → Option Json) (cfg : EnvCfg) (env : RetrievalEnv) (gen : GenOutcome),
      resolveApiKey cfg = none →
      analyzeUrl parse cfg env gen = (Except.error ⟨none, missingKeyMsg⟩, ([] : List NetCall)) := by
  intro parse cfg env gen h
  unfold analyzeUrl
  rw [h]

/-- C8 witness: with no environment slots set, the call fails pre-flight
with the missing-credential message and the attempted-calls list is
empty. -/
theorem C8_witness :
    analyzeUrl parseJsonSimple cfgNoKey envBothThrow (GenOutcome.returned (some "x")) =
      (Except.error ⟨none, missingKeyMsg⟩, ([] : List NetCall)) :=
  C8_missing_credential_preflight _ _ _ _ rfl

/-! # C9: failure classification of the generative call -/

/-- C9: with a credential present, a thrown error with status 429 or a
message containing "429" surfaces as the rate-limited error; a thrown error
with status 404 (not matching the 429 rule) surfaces as the
model-unavailable error; a successful call with an empty or absent text
payload surfaces as the empty-response error; and any other thrown error
surfaces with its own message (the generic transport path). -/
theorem C9_error_classification :
    ∀ (parse : List Char → Option Json) (cfg : EnvCfg) (env : RetrievalEnv) (key : String),
      resolveApiKey cfg = some key →
      (∀ e : JsError, (e.status = some 429 ∨ contains429 e.message = true) →
        (analyzeUrl parse cfg env (GenOutcome.threw e)).1 =
          Except.error ⟨none, rateLimitedMsg⟩) ∧
      (∀ e : JsError, ¬(e.status = some 429 ∨ contains429 e.message = true) →
        e.status = some 404 →
        (analyzeUrl parse cfg env (GenOutcome.threw e)).1 =
          Except.error ⟨none, modelUnavailableMsg⟩) ∧
      (∀ txt, jsFalsyText txt = true →
        (analyzeUrl parse cfg env (GenOutcome.returned txt)).1 =
          Except.error ⟨none, emptyResponseMsg⟩) ∧
      (∀ e : JsError, ¬(e.status = some 429 ∨ contains429 e.message = true) →
        e.status ≠ some 404 → e.message ≠ "" →
        (analyzeUrl parse cfg env (GenOutcome.threw e)).1 =
          Except.error ⟨none, e.message⟩) := by
  intro parse cfg env key hkey
  refine ⟨?_, ?_, ?_, ?_⟩
  · intro e hcond
    unfold analyzeUrl
    rw [hkey]
    rcases hcond with h | h
    · simp [classifyCatch, h]
    · simp [classifyCatch, h]
  · intro e hne h404
    have ha : e.status ≠ some 429 := fun h => hne (Or.inl h)
    have hb : contains429 e.message = false := by
      cases hcb : contains429 e.message
      · rfl
      · exact absurd (Or.inr hcb) hne
    unfold analyzeUrl
    rw [hkey]
    simp [classifyCatch, h404, hb]
  · intro txt hfalsy
    unfold analyzeUrl
    rw [hkey]
    have hclass : classifyCatch ⟨none, emptyResponseMsg⟩ = ⟨none, emptyResponseMsg⟩ := by decide
    simp [hfalsy, hclass]
  · intro e hne h404 hmsg
    have ha : e.status ≠ some 429 := fun h => hne (Or.inl h)
    have hb : contains429 e.message = false := by
      cases hcb : contains429 e.message
      · rfl
      · exact absurd (Or.inr hcb) hne
    unfold analyzeUrl
    rw [hkey]
    simp [classifyCatch, ha, hb, h404, hmsg]

/-- C9 witness: the four classifications at concrete inputs (status 429,
message containing "429", status 404, empty text). -/
theorem C9_witness :
    (analyzeUrl parseJsonSimple cfgWithKey envBothThrow
        (GenOutcome.threw ⟨some 429, "quota"⟩)).1 = Except.error ⟨none, rateLimitedMsg⟩ ∧
    (analyzeUrl parseJsonSimple cfgWithKey envBothThrow
        (GenOutcome.threw ⟨none, "http 429 hit"⟩)).1 = Except.error ⟨none, rateLimitedMsg⟩ ∧
    (analyzeUrl parseJsonSimple cfgWithKey envBothThrow
        (GenOutcome.threw ⟨some 404, "not found"⟩)).1 =
      Except.error ⟨none, modelUnavailableMsg⟩ ∧
    (analyzeUrl parseJsonSimple cfgWithKey envBothThrow
        (GenOutcome.returned none)).1 = Except.error ⟨none, emptyResponseMsg⟩ ∧
    (analyzeUrl parseJsonSimple cfgWithKey envBothThrow
        (GenOutcome.threw ⟨some 500, "boom"⟩)).1 = Except.error ⟨none, "boom"⟩ :=
  ⟨(C9_error_classification parseJsonSimple cfgWithKey envBothThrow "k" rfl).1 _
      (Or.inl rfl),
   (C9_error_classification parseJsonSimple cfgWithKey envBothThrow "k" rfl).1 _
      (Or.inr (by decide)),
   (C9_error_classification parseJsonSimple cfgWithKey envBothThrow "k" rfl).2.1 _
      (by decide) rfl,
   (C9_error_classification parseJsonSimple cfgWithKey envBothThrow "k" rfl).2.2.1 _ rfl,
   (C9_error_classification parseJsonSimple cfgWithKey envBothThrow "k" rfl).2.2.2 _
      (by decide) (by decide) (by decide)⟩

/-! # C1: schema validation -/

/-- C1 counterexample: with a credential configured, a model response whose
JSON parses to an object missing six of the seven fields (and with `name`
mistyped as a number) is returned by the pipeline as a successful
`PosterRecord`; no `SchemaViolation` failure occurs and the non-conforming
value reaches the caller, contradicting the claim. -/
theorem C1_no_validation_counterexample :
    (analyzeUrl parseJsonSimple cfgWithKey envBothThrow
        (GenOutcome.returned (some "\x7b\"name\":5\x7d"))).1 =
      Except.ok (Json.obj [(['n', 'a', 'm', 'e'], Json.num 5)]) ∧
    specSchemaValidate (Json.obj [(['n', 'a', 'm', 'e'], Json.num 5)]) = false := by
  constructor
  · rfl
  · rfl

/-- C1 amended: after JSON extraction succeeds, `analyzeUrl` returns the
parsed value as the PosterRecord without any runtime field validation: the
seven-field shape is requested from the collaborator via the response
schema, but a missing or mistyped field in the parsed response does not
raise any error (no `SchemaViolation` exists in the code) and the value is
returned to the caller unchanged. -/
theorem C1_amended_no_runtime_validation :
    ∀ (parse : List Char → Option Json) (cfg : EnvCfg) (env : RetrievalEnv) (t : String)
      (v : Json) (key : String),
      resolveApiKey cfg = some key → t ≠ "" →
      extractJson parse t.toList = Except.ok v →
      (analyzeUrl parse cfg env (GenOutcome.returned (some t))).1 = Except.ok v := by
  intro parse cfg env t v key hkey ht hx
  unfold analyzeUrl
  rw [hkey]
  simp [jsFalsyText, ht]
  rw [show extractJson parse t.data = Except.ok v from hx]

/-- C1 amended witness: a single-field object flows through unvalidated. -/
theorem C1_amended_witness :
    (analyzeUrl parseJsonSimple cfgWithKey envBothThrow
        (GenOutcome.returned (some "\x7b\"tag\":\"t\"\x7d"))).1 =
      Except.ok (Json.obj [(['t', 'a', 'g'], Json.str ['t'])]) :=
  C1_amended_no_runtime_validation parseJsonSimple cfgWithKey envBothThrow _ _ "k" rfl
    (by decide) rfl

/-! # C5: sanitizer helper lemmas -/

theorem charCI_lt_left {c : Char} (h : c ≠ '<') : charCI '<' c = false := by
  simp only [charCI, decide_eq_false_iff_not]
  intro hl
  rw [show lowerCode '<' = 60 from rfl] at hl
  have hn : c.toNat = 60 := by
    simp only [lowerCode] at hl
    split at hl <;> omega
  exact h (charToNat_inj (show c.toNat = Char.toNat '<' from hn))

theorem openLen_cons_ne {tag : List Char} {c : Char} {l : List Char} (h : c ≠ '<') :
    openLen tag (c :: l) = none := by
  unfold openLen
  split
  · rename_i rest heq
    exact absurd (List.cons.inj heq).1 h
  · rfl

theorem removeTagBlocks_cons_ne {tag : List Char} {c : Char} {l : List Char} (h : c ≠ '<') :
    removeTagBlocks tag (c :: l) = c :: removeTagBlocks tag l := by
  conv_lhs => unfold removeTagBlocks
  rw [openLen_cons_ne h]

theorem removeTagBlocks_append_clean {tag pre rest : List Char}
    (h : ∀ c ∈ pre, c ≠ '<') :
    removeTagBlocks tag (pre ++ rest) = pre ++ removeTagBlocks tag rest := by
  induction pre with
  | nil => rfl
  | cons c pre ih =>
    rw [List.cons_append, removeTagBlocks_cons_ne (h c (List.mem_cons_self c pre)),
      ih fun d hd => h d (List.mem_cons_of_mem c hd)]
    rfl

theorem prefixCI_self_append (tag r : List Char) : prefixCI tag (tag ++ r) = true := by
  induction tag with
  | nil => rfl
  | cons c tag ih =>
    simp only [List.cons_append, prefixCI, Bool.and_eq_true]
    exact ⟨by simp [charCI], ih⟩

theorem closeIdx_cons_ne {p l : List Char} {c : Char} (h : c ≠ '<') :
    closeIdx ('<' :: p) (c :: l) = (closeIdx ('<' :: p) l).map (fun n => n + 1) := by
  conv_lhs => unfold closeIdx
  simp [prefixCI, charCI_lt_left h]

theorem closeIdx_clean {p body post : List Char} (h : ∀ c ∈ body, c ≠ '<') :
    closeIdx ('<' :: p) (body ++ ('<' :: p) ++ post) = some body.length := by
  induction body with
  | nil =>
    simp only [List.nil_append, List.cons_append]
    unfold closeIdx
    rw [show prefixCI ('<' :: p) ('<' :: (p ++ post)) = true from prefixCI_self_append _ _]
    rfl
  | cons c body ih =>
    simp only [List.cons_append]
    rw [closeIdx_cons_ne (h c (List.mem_cons_self c body))]
    rw [show (body ++ '<' :: p ++ post : List Char) = body ++ ('<' :: p) ++ post from rfl]
    rw [ih fun d hd => h d (List.mem_cons_of_mem c hd)]
    rfl

theorem openLen_script (rest : List Char) :
    openLen scriptTag ('<' :: (scriptTag ++ ('>' :: rest))) = some 8 := rfl

theorem removeTagBlocks_script_block {body post : List Char} (h : ∀ c ∈ body, c ≠ '<') :
    removeTagBlocks scriptTag (scriptOpen ++ (body ++ (scriptClose ++ post))) =
      removeTagBlocks scriptTag post := by
  have hshape : scriptOpen ++ (body ++ (scriptClose ++ post)) =
      '<' :: (scriptTag ++ ('>' :: (body ++ (scriptClose ++ post)))) := by
    simp [scriptOpen]
  have hshape2 : ('<' : Char) :: (scriptTag ++ ('>' :: (body ++ (scriptClose ++ post)))) =
      (scriptOpen ++ body ++ scriptClose) ++ post := by
    simp [scriptOpen, scriptClose]
  have hlen : (scriptOpen ++ body ++ scriptClose).length =
      8 + (body.length + (scriptTag.length + 3)) := by
    simp [scriptOpen, scriptClose, scriptTag]
    omega
  rw [hshape]
  conv_lhs => unfold removeTagBlocks
  simp only [openLen_script]
  have hdrop8 : List.drop 8 ('<' :: (scriptTag ++ ('>' :: (body ++ (scriptClose ++ post))))) =
      body ++ scriptClose ++ post := by
    rw [← hshape]
    rw [show scriptOpen ++ (body ++ (scriptClose ++ post)) =
      scriptOpen ++ (body ++ scriptClose ++ post) by simp]
    exact List.drop_left' rfl
  rw [hdrop8]
  rw [show closeIdx ('<' :: '/' :: (scriptTag ++ ['>'])) (body ++ scriptClose ++ post) =
    some body.length from closeIdx_clean h]
  show removeTagBlocks scriptTag
      (List.drop (8 + (body.length + (scriptTag.length + 3)))
        ('<' :: (scriptTag ++ ('>' :: (body ++ (scriptClose ++ post)))))) =
    removeTagBlocks scriptTag post
  rw [hshape2]
  rw [show (scriptOpen ++ body ++ scriptClose ++ post : List Char) =
    (scriptOpen ++ body ++ scriptClose) ++ post by simp]
  rw [List.drop_left' hlen]

/-- C5: on Strategy A success the result is the body run through the four
removal passes in source order (script blocks, style blocks, HTML comments,
svg blocks) and then truncated to 150000 characters — truncation after
sanitization; on Strategy B success the result is the raw body truncated to
50000 characters; and a script element with a clean context (no `<` in the
preceding text or in the script body) is removed whole by sanitization, so
its inline text does not survive into the result. -/
theorem C5_sanitize_truncate :
    (∀ env body, env.proxyA = FetchOutcome.completed true body →
      (fetchUrlContent env).1 =
        (removeTagBlocks svgTag (removeComments (removeTagBlocks styleTag
          (removeTagBlocks scriptTag body)))).take 150000) ∧
    (∀ env bodyA bodyB, env.proxyA = FetchOutcome.completed false bodyA →
      env.jinaB = FetchOutcome.completed true bodyB →
      (fetchUrlContent env).1 = bodyB.take 50000) ∧
    (∀ pre body post : List Char, (∀ c ∈ pre, c ≠ '<') → (∀ c ∈ body, c ≠ '<') →
      sanitizeHtml (pre ++ scriptOpen ++ (body ++ (scriptClose ++ post))) =
        sanitizeHtml (pre ++ post)) := by
  refine ⟨?_, ?_, ?_⟩
  · intro env body h
    obtain ⟨a, b⟩ := env
    have h2 : a = FetchOutcome.completed true body := h
    subst h2
    rfl
  · intro env bodyA bodyB h1 h2
    obtain ⟨a, b⟩ := env
    have h1b : a = FetchOutcome.completed false bodyA := h1
    have h2b : b = FetchOutcome.completed true bodyB := h2
    subst h1b
    subst h2b
    rfl
  · intro pre body post hpre hbody
    unfold sanitizeHtml
    rw [show pre ++ scriptOpen ++ (body ++ (scriptClose ++ post)) =
      pre ++ (scriptOpen ++ (body ++ (scriptClose ++ post))) by simp]
    rw [removeTagBlocks_append_clean hpre, removeTagBlocks_script_block hbody]
    rw [show removeTagBlocks scriptTag (pre ++ post) =
      pre ++ removeTagBlocks scriptTag post from removeTagBlocks_append_clean hpre]

/-- C5 witness: a concrete page whose script block is removed before the
150000-character truncation, and the structural script-removal property at
concrete strings. -/
theorem C5_witness :
    (fetchUrlContent ⟨FetchOutcome.completed true
        ['<', 's', 'c', 'r', 'i', 'p', 't', '>', 'x', '<', '/', 's', 'c', 'r', 'i', 'p', 't', '>', 'B'],
      FetchOutcome.threw⟩).1 =
      (removeTagBlocks svgTag (removeComments (removeTagBlocks styleTag (removeTagBlocks scriptTag
        ['<', 's', 'c', 'r', 'i', 'p', 't', '>', 'x', '<', '/', 's', 'c', 'r', 'i', 'p', 't', '>', 'B'])))).take
        150000 ∧
    sanitizeHtml (['a'] ++ scriptOpen ++ (['x'] ++ (scriptClose ++ ['b']))) =
      sanitizeHtml (['a'] ++ ['b']) :=
  ⟨C5_sanitize_truncate.1 _ _ rfl,
   C5_sanitize_truncate.2.2 ['a'] ['x'] ['b'] (by decide) (by decide)⟩

/-! # C3: fence search helper lemmas -/

theorem isPrefixOf_cons_ne {a c : Char} {p l : List Char} (h : c ≠ a) :
    (a :: p).isPrefixOf (c :: l) = false := by
  simp only [List.isPrefixOf, Bool.and_eq_false_iff]
  left
  simp [Ne.symm h]

theorem dropWhile_append_of_ne_nil {p : Char → Bool} {xs ys : List Char}
    (h : xs.dropWhile p ≠ []) :
    (xs ++ ys).dropWhile p = xs.dropWhile p ++ ys := by
  rw [List.dropWhile_append]
  simp [List.isEmpty_iff, h]

theorem dropWhile_nl_fenceClose (post : List Char) :
    List.dropWhile isJsSpace ('\n' :: (fenceClose ++ post)) = fenceClose ++ post := by
  rw [show ('\n' :: (fenceClose ++ post) : List Char) =
    '\n' :: backtickChar :: ([backtickChar, backtickChar] ++ post) from rfl]
  simp [fenceClose, List.dropWhile_cons, show isJsSpace '\n' = true from rfl,
    show isJsSpace backtickChar = false from rfl]

theorem interiorLoop_stop {u : List Char} (hne : u ≠ [])
    (h : fenceClose.isPrefixOf (u.dropWhile isJsSpace) = true) : interiorLoop u = some [] := by
  obtain ⟨c, cs, rfl⟩ := List.exists_cons_of_ne_nil hne
  unfold interiorLoop
  rw [h]
  rfl

theorem interiorLoop_step {c : Char} {cs : List Char}
    (h : fenceClose.isPrefixOf ((c :: cs).dropWhile isJsSpace) = false) :
    interiorLoop (c :: cs) = (interiorLoop cs).map (fun i => c :: i) := by
  conv_lhs => unfold interiorLoop
  rw [h]
  simp

theorem interiorLoop_clean :
    ∀ (inner post : List Char), (∀ c ∈ inner, c ≠ backtickChar) →
      (∀ a, inner.getLast? = some a → isJsSpace a = false) →
      interiorLoop (inner ++ ('\n' :: (fenceClose ++ post))) = some inner := by
  intro inner
  induction inner with
  | nil =>
    intro post _ _
    rw [List.nil_append]
    exact interiorLoop_stop (by simp)
      (by rw [dropWhile_nl_fenceClose]
          exact List.isPrefixOf_iff_prefix.mpr (List.prefix_append _ _))
  | cons c cs ih =>
    intro post hbt hlast
    have hg : (c :: cs).getLast? = some ((c :: cs).getLast (by simp)) :=
      List.getLast?_eq_getLast _ (by simp)
    have hgws : isJsSpace ((c :: cs).getLast (by simp)) = false := hlast _ hg
    have hgmem : (c :: cs).getLast (by simp) ∈ c :: cs :=
      List.mem_of_mem_getLast? (by rw [hg]; rfl)
    have hdw_ne : (c :: cs).dropWhile isJsSpace ≠ [] := by
      intro hnil
      rw [List.dropWhile_eq_nil_iff] at hnil
      rw [hnil _ hgmem] at hgws
      cases hgws
    have hcondfalse :
        fenceClose.isPrefixOf (((c :: cs) ++ ('\n' :: (fenceClose ++ post))).dropWhile isJsSpace) =
          false := by
      rw [dropWhile_append_of_ne_nil hdw_ne]
      obtain ⟨d, ds, hds⟩ := List.exists_cons_of_ne_nil hdw_ne
      rw [hds, List.cons_append]
      have hdmem : d ∈ c :: cs := by
        have hd : d ∈ (c :: cs).dropWhile isJsSpace := by
          rw [hds]
          exact List.mem_cons_self d ds
        exact (List.dropWhile_suffix isJsSpace).subset hd
      exact isPrefixOf_cons_ne (hbt d hdmem)
    rw [List.cons_append]
    rw [interiorLoop_step (show fenceClose.isPrefixOf
      ((c :: (cs ++ '\n' :: (fenceClose ++ post))).dropWhile isJsSpace) = false from hcondfalse)]
    have ihcs : interiorLoop (cs ++ ('\n' :: (fenceClose ++ post))) = some cs := by
      apply ih
      · intro d hd
        exact hbt d (List.mem_cons_of_mem c hd)
      · intro a ha
        apply hlast
        rw [List.getLast?_cons, ha]
        rfl
    rw [ihcs]
    rfl

theorem findFence_cons_ne {c : Char} {l : List Char} (h : c ≠ backtickChar) :
    findFence (c :: l) = findFence l := by
  conv_lhs => unfold findFence
  rw [show fenceJson.isPrefixOf (c :: l) = false from isPrefixOf_cons_ne h]
  rfl

theorem findFence_append_clean {pre rest : List Char} (h : ∀ c ∈ pre, c ≠ backtickChar) :
    findFence (pre ++ rest) = findFence rest := by
  induction pre with
  | nil => rfl
  | cons c pre ih =>
    rw [List.cons_append, findFence_cons_ne (h c (List.mem_cons_self c pre)),
      ih fun d hd => h d (List.mem_cons_of_mem c hd)]

theorem findFence_fence {r i : List Char}
    (h : interiorLoop (r.dropWhile isJsSpace) = some i) :
    findFence (fenceJson ++ r) = some i := by
  rw [show fenceJson ++ r = backtickChar ::
    ([backtickChar, backtickChar, 'j', 's', 'o', 'n'] ++ r) from rfl]
  conv_lhs => unfold findFence
  rw [show fenceJson.isPrefixOf (backtickChar ::
      ([backtickChar, backtickChar, 'j', 's', 'o', 'n'] ++ r)) = true from
    List.isPrefixOf_iff_prefix.mpr (List.prefix_append fenceJson r)]
  simp only [if_true]
  rw [show List.drop 7 (backtickChar ::
    ([backtickChar, backtickChar, 'j', 's', 'o', 'n'] ++ r)) = r from rfl]
  rw [h]

/-- C3: `extractJson` first searches for a `json` code fence - when one is
found its interior is parsed as JSON, otherwise the whole raw string is
parsed; a parse failure in either branch yields exactly the MalformedJson
error (no partial recovery); and on a text of the shape
`pre ++ "```json\n" ++ inner ++ "\n```" ++ post` (no backtick in `pre` or
`inner`, `inner` with non-whitespace edges) the fence search returns exactly
`inner`. -/
theorem C3_parse_order :
    (∀ (parse : List Char → Option Json) (text i : List Char), findFence text = some i →
      (∀ v, parse i = some v → extractJson parse text = Except.ok v) ∧
      (parse i = none → extractJson parse text = Except.error ⟨none, malformedJsonMsg⟩)) ∧
    (∀ (parse : List Char → Option Json) (text : List Char), findFence text = none →
      (∀ v, parse text = some v → extractJson parse text = Except.ok v) ∧
      (parse text = none → extractJson parse text = Except.error ⟨none, malformedJsonMsg⟩)) ∧
    (∀ pre inner post : List Char, inner ≠ [] →
      (∀ c ∈ pre, c ≠ backtickChar) → (∀ c ∈ inner, c ≠ backtickChar) →
      (∀ a, inner.head? = some a → isJsSpace a = false) →
      (∀ a, inner.getLast? = some a → isJsSpace a = false) →
      findFence (pre ++ (fenceJson ++ ('\n' :: (inner ++ ('\n' :: (fenceClose ++ post)))))) =
        some inner) := by
  refine ⟨?_, ?_, ?_⟩
  · intro parse text i h
    constructor
    · intro v hv
      simp [extractJson, h, hv]
    · intro hv
      simp [extractJson, h, hv]
  · intro parse text h
    constructor
    · intro v hv
      simp [extractJson, h, hv]
    · intro hv
      simp [extractJson, h, hv]
  · intro pre inner post hne hpre hbt hhead hlast
    rw [findFence_append_clean hpre]
    apply findFence_fence
    obtain ⟨c, cs, rfl⟩ := List.exists_cons_of_ne_nil hne
    have hdw : (('\n' :: ((c :: cs) ++ ('\n' :: (fenceClose ++ post)))).dropWhile isJsSpace) =
        (c :: cs) ++ ('\n' :: (fenceClose ++ post)) := by
      rw [List.dropWhile_cons]
      simp only [show isJsSpace '\n' = true from rfl, if_true]
      rw [List.cons_append, List.dropWhile_cons]
      rw [hhead c rfl]
      simp
    rw [show ('\n' :: ((c :: cs) ++ ('\n' :: (fenceClose ++ post)))).dropWhile isJsSpace =
      (('\n' :: ((c :: cs) ++ ('\n' :: (fenceClose ++ post)))).dropWhile isJsSpace) from rfl] at hdw
    rw [hdw]
    exact interiorLoop_clean (c :: cs) post hbt hlast

/-- C3 witness: the branch facts and the fence characterization at concrete
inputs (a fenced `1`, parsed by the JSON model; a plain `2` with no fence;
a malformed fenced text). -/
theorem C3_witness :
    extractJson parseJsonSimple
        (['p'] ++ (fenceJson ++ ('\n' :: (['1'] ++ ('\n' :: (fenceClose ++ ['q'])))))) =
      Except.ok (Json.num 1) ∧
    extractJson parseJsonSimple ['2'] = Except.ok (Json.num 2) ∧
    extractJson parseJsonSimple ['o', 'o', 'p', 's'] =
      Except.error ⟨none, malformedJsonMsg⟩ :=
  ⟨(C3_parse_order.1 parseJsonSimple _ ['1']
      (C3_parse_order.2.2 ['p'] ['1'] ['q'] (by decide) (by decide) (by decide)
        (by decide) (by decide))).1 _ rfl,
   (C3_parse_order.2.1 parseJsonSimple ['2'] rfl).1 _ rfl,
   (C3_parse_order.2.1 parseJsonSimple ['o', 'o', 'p', 's'] rfl).2 rfl⟩

/-! # C6 and C7: title splitter helper lemmas -/

theorem dropWhile_cons_false {c : Char} {l : List Char} (h : isJsSpace c = false) :
    List.dropWhile isJsSpace (c :: l) = c :: l := by
  rw [List.dropWhile_cons]
  simp [h]

theorem wsLen_cons_false {c : Char} {l : List Char} (h : isJsSpace c = false) :
    wsLen (c :: l) = 0 := by
  simp [wsLen, h]

theorem trimJs_eq_rdrop (s : List Char) :
    trimJs s = List.rdropWhile isJsSpace (s.dropWhile isJsSpace) := rfl

theorem trimJs_idem (s : List Char) : trimJs (trimJs s) = trimJs s := by
  rw [trimJs_eq_rdrop, trimJs_eq_rdrop]
  have h1 : List.dropWhile isJsSpace
      (List.rdropWhile isJsSpace (s.dropWhile isJsSpace)) =
      List.rdropWhile isJsSpace (s.dropWhile isJsSpace) := by
    rw [List.dropWhile_eq_self_iff]
    intro hl
    have hpre : List.rdropWhile isJsSpace (s.dropWhile isJsSpace) <+:
        s.dropWhile isJsSpace := List.rdropWhile_prefix _ _
    have hlt : 0 < (s.dropWhile isJsSpace).length := lt_of_lt_of_le hl hpre.length_le
    have hget := hpre.getElem (n := 0) hl
    have hself : List.dropWhile isJsSpace (s.dropWhile isJsSpace) = s.dropWhile isJsSpace :=
      List.dropWhile_idempotent _ _
    have hhead := List.dropWhile_eq_self_iff.mp hself hlt
    simpa [List.get_eq_getElem, hget] using hhead
  rw [h1, List.rdropWhile_idempotent]

theorem trimJs_eq_self_of_ends {l : List Char}
    (h1 : ∀ a, l.head? = some a → isJsSpace a = false)
    (h2 : ∀ a, l.getLast? = some a → isJsSpace a = false) : trimJs l = l := by
  rcases l with _ | ⟨c, cs⟩
  · rfl
  · rw [trimJs_eq_rdrop, dropWhile_cons_false (h1 c rfl)]
    refine List.rdropWhile_eq_self_iff.mpr fun hl => ?_
    have := h2 _ (List.getLast?_eq_getLast _ hl)
    simp [this]

theorem trimJs_all_not_ws {l : List Char} (h : ∀ c ∈ l, isJsSpace c = false) :
    trimJs l = l :=
  trimJs_eq_self_of_ends (fun a ha => h a (List.mem_of_mem_head? ha))
    (fun a ha => h a (List.mem_of_mem_getLast? ha))

theorem trimJs_plain {l : List Char} (h : ∀ c ∈ l, plainChar c) : trimJs l = l :=
  trimJs_all_not_ws fun c hc => plainChar_not_ws (h c hc)

theorem isWsOptBracketEnd_nil : isWsOptBracketEnd [] = true := rfl

theorem isWsOptBracketEnd_rbracket : isWsOptBracketEnd ['】'] = true := by decide

theorem isWsOptBracketEnd_cons_false {c : Char} {l : List Char}
    (hws : isJsSpace c = false) (hbr : c ≠ '】') :
    isWsOptBracketEnd (c :: l) = false := by
  unfold isWsOptBracketEnd
  rw [dropWhile_cons_false hws]
  simp [hbr]

theorem lazyG_cons_end {c : Char} {l : List Char} (hlt : isLineTerm c = false)
    (hend : isWsOptBracketEnd l = true) : lazyG (c :: l) = some [c] := by
  unfold lazyG
  rw [hlt, hend]
  simp

theorem lazyG_cons_mid {c : Char} {l : List Char} (hlt : isLineTerm c = false)
    (hend : isWsOptBracketEnd l = false) :
    lazyG (c :: l) = (lazyG l).map (fun g => c :: g) := by
  conv_lhs => unfold lazyG
  rw [hlt, hend]
  cases h : lazyG l <;> simp [h]

theorem lazyG_clean : ∀ (Y suffix : List Char), Y ≠ [] → (∀ c ∈ Y, plainChar c) →
    isWsOptBracketEnd suffix = true → lazyG (Y ++ suffix) = some Y := by
  intro Y
  induction Y with
  | nil => intro suffix h; exact absurd rfl h
  | cons y ys ih =>
    intro suffix _ hplain hend
    have hy : plainChar y := hplain y (List.mem_cons_self y ys)
    rw [List.cons_append]
    cases ys with
    | nil =>
      rw [List.nil_append]
      exact lazyG_cons_end (plainChar_not_lt hy) hend
    | cons y2 ys2 =>
      have hy2 : plainChar y2 := hplain y2 (by simp)
      have hmid : isWsOptBracketEnd ((y2 :: ys2) ++ suffix) = false := by
        rw [List.cons_append]
        exact isWsOptBracketEnd_cons_false (plainChar_not_ws hy2) hy2.2.2.2
      rw [lazyG_cons_mid (plainChar_not_lt hy)
        (show isWsOptBracketEnd ((y2 :: ys2) ++ suffix) = false from hmid)]
      rw [ih suffix (by simp) (fun c hc => hplain c (List.mem_cons_of_mem y hc)) hend]
      rfl

theorem matchTail_space {Y : List Char} (hne : Y ≠ []) (hplain : ∀ c ∈ Y, plainChar c) :
    matchTail (' ' :: Y) = some Y := by
  obtain ⟨y, ys, rfl⟩ := List.exists_cons_of_ne_nil hne
  unfold matchTail
  have hw : wsLen (' ' :: y :: ys) = 1 := by
    rw [show wsLen (' ' :: y :: ys) = wsLen (y :: ys) + 1 by
      simp [wsLen, show isJsSpace ' ' = true from rfl]]
    rw [wsLen_cons_false (plainChar_not_ws (hplain y (by simp)))]
  rw [hw]
  unfold tailLoop
  rw [show List.drop (0 + 1) (' ' :: y :: ys) = y :: ys from rfl]
  rw [show lazyG (y :: ys) = some (y :: ys) by
    have h := lazyG_clean (y :: ys) [] hne hplain isWsOptBracketEnd_nil
    rwa [List.append_nil] at h]

theorem matchTail_bracket {Y : List Char} (hne : Y ≠ []) (hplain : ∀ c ∈ Y, plainChar c) :
    matchTail (Y ++ ['】']) = some Y := by
  obtain ⟨y, ys, rfl⟩ := List.exists_cons_of_ne_nil hne
  unfold matchTail
  rw [List.cons_append]
  rw [wsLen_cons_false (plainChar_not_ws (hplain y (by simp)))]
  unfold tailLoop
  rw [show (y :: (ys ++ ['】'])) = (y :: ys) ++ ['】'] from rfl]
  exact lazyG_clean (y :: ys) ['】'] hne hplain isWsOptBracketEnd_rbracket

theorem dotAfterWs_plain_cons {c : Char} {l : List Char} (h : plainChar c) :
    dotAfterWs (c :: l) = none := by
  unfold dotAfterWs
  rw [dropWhile_cons_false (plainChar_not_ws h)]
  simp [h.2.1]

theorem dotAfterWs_sep (Y : List Char) : dotAfterWs (' ' :: '·' :: ' ' :: Y) = some (' ' :: Y) := by
  unfold dotAfterWs
  rw [show List.dropWhile isJsSpace (' ' :: '·' :: ' ' :: Y) = '·' :: ' ' :: Y by
    rw [List.dropWhile_cons]
    simp only [show isJsSpace ' ' = true from rfl, if_true]
    exact dropWhile_cons_false rfl]
  simp

theorem dotAfterWs_dot (r : List Char) : dotAfterWs ('·' :: r) = some r := by
  unfold dotAfterWs
  rw [dropWhile_cons_false (show isJsSpace '·' = false from rfl)]
  simp

theorem lazyC_cons_found {c : Char} {cs r g2 : List Char} (hlt : isLineTerm c = false)
    (hd : dotAfterWs cs = some r) (ht : matchTail r = some g2) :
    lazyC (c :: cs) = some ([c], g2) := by
  conv_lhs => unfold lazyC
  rw [hlt, hd]
  simp [ht]

theorem lazyC_cons_skip {c : Char} {cs : List Char} (hlt : isLineTerm c = false)
    (hd : dotAfterWs cs = none) :
    lazyC (c :: cs) = (lazyC cs).map (fun p => (c :: p.1, p.2)) := by
  conv_lhs => unfold lazyC
  rw [hlt, hd]
  rcases h : lazyC cs with _ | ⟨g1, g2⟩ <;> simp [h]

theorem lazyC_space : ∀ (X Y : List Char), X ≠ [] → (∀ c ∈ X, plainChar c) → Y ≠ [] →
    (∀ c ∈ Y, plainChar c) → lazyC (X ++ ' ' :: '·' :: ' ' :: Y) = some (X, Y) := by
  intro X
  induction X with
  | nil => intro Y h; exact absurd rfl h
  | cons x xs ih =>
    intro Y _ hpX hY hpY
    have hx : plainChar x := hpX x (by simp)
    rw [List.cons_append]
    cases xs with
    | nil =>
      rw [List.nil_append]
      exact lazyC_cons_found (plainChar_not_lt hx) (dotAfterWs_sep Y)
        (matchTail_space hY hpY)
    | cons x2 xs2 =>
      have hx2 : plainChar x2 := hpX x2 (by simp)
      have hskip : dotAfterWs ((x2 :: xs2) ++ ' ' :: '·' :: ' ' :: Y) = none := by
        rw [List.cons_append]
        exact dotAfterWs_plain_cons hx2
      rw [lazyC_cons_skip (plainChar_not_lt hx)
        (show dotAfterWs ((x2 :: xs2) ++ ' ' :: '·' :: ' ' :: Y) = none from hskip)]
      rw [ih Y (by simp) (fun c hc => hpX c (List.mem_cons_of_mem x hc)) hY hpY]
      rfl

theorem lazyC_bracket : ∀ (X Y : List Char), X ≠ [] → (∀ c ∈ X, plainChar c) → Y ≠ [] →
    (∀ c ∈ Y, plainChar c) → lazyC (X ++ '·' :: (Y ++ ['】'])) = some (X, Y) := by
  intro X
  induction X with
  | nil => intro Y h; exact absurd rfl h
  | cons x xs ih =>
    intro Y _ hpX hY hpY
    have hx : plainChar x := hpX x (by simp)
    rw [List.cons_append]
    cases xs with
    | nil =>
      rw [List.nil_append]
      exact lazyC_cons_found (plainChar_not_lt hx) (dotAfterWs_dot (Y ++ ['】']))
        (matchTail_bracket hY hpY)
    | cons x2 xs2 =>
      have hx2 : plainChar x2 := hpX x2 (by simp)
      have hskip : dotAfterWs ((x2 :: xs2) ++ '·' :: (Y ++ ['】'])) = none := by
        rw [List.cons_append]
        exact dotAfterWs_plain_cons hx2
      rw [lazyC_cons_skip (plainChar_not_lt hx)
        (show dotAfterWs ((x2 :: xs2) ++ '·' :: (Y ++ ['】'])) = none from hskip)]
      rw [ih Y (by simp) (fun c hc => hpX c (List.mem_cons_of_mem x hc)) hY hpY]
      rfl

theorem frontMatch_eq_lazyC {u : List Char} (h : wsLen u = 0) : frontMatch u = lazyC u := by
  unfold frontMatch
  rw [h]
  rfl

theorem matchDotAt_cons (c : Char) (cs : List Char) :
    matchDotAt (c :: cs) =
      if c = '【' then
        match frontMatch cs with
        | some r => some r
        | none => frontMatch (c :: cs)
      else frontMatch (c :: cs) := rfl

theorem matchDot_cons_found {c : Char} {cs : List Char} {r : List Char × List Char}
    (h : matchDotAt (c :: cs) = some r) : matchDot (c :: cs) = some r := by
  conv_lhs => unfold matchDot
  rw [h]

theorem matchDot_space {X Y : List Char} (hX : X ≠ []) (hpX : ∀ c ∈ X, plainChar c)
    (hY : Y ≠ []) (hpY : ∀ c ∈ Y, plainChar c) :
    matchDot (X ++ ' ' :: '·' :: ' ' :: Y) = some (X, Y) := by
  obtain ⟨x, xs, rfl⟩ := List.exists_cons_of_ne_nil hX
  rw [List.cons_append]
  apply matchDot_cons_found
  rw [matchDotAt_cons, if_neg (hpX x (by simp)).2.2.1]
  show frontMatch ((x :: xs) ++ ' ' :: '·' :: ' ' :: Y) = some (x :: xs, Y)
  rw [frontMatch_eq_lazyC (show wsLen ((x :: xs) ++ ' ' :: '·' :: ' ' :: Y) = 0 from
    wsLen_cons_false (plainChar_not_ws (hpX x (by simp))))]
  exact lazyC_space (x :: xs) Y hX hpX hY hpY

theorem matchDot_bracket {X Y : List Char} (hX : X ≠ []) (hpX : ∀ c ∈ X, plainChar c)
    (hY : Y ≠ []) (hpY : ∀ c ∈ Y, plainChar c) :
    matchDot ('【' :: (X ++ '·' :: (Y ++ ['】']))) = some (X, Y) := by
  apply matchDot_cons_found
  rw [matchDotAt_cons, if_pos rfl]
  obtain ⟨x, xs, rfl⟩ := List.exists_cons_of_ne_nil hX
  show (match frontMatch ((x :: xs) ++ '·' :: (Y ++ ['】'])) with
    | some r => some r
    | none => frontMatch ('【' :: ((x :: xs) ++ '·' :: (Y ++ ['】'])))) = some (x :: xs, Y)
  rw [frontMatch_eq_lazyC (show wsLen ((x :: xs) ++ '·' :: (Y ++ ['】'])) = 0 from
    wsLen_cons_false (plainChar_not_ws (hpX x (by simp))))]
  rw [lazyC_bracket (x :: xs) Y hX hpX hY hpY]

theorem findDash_decomp : ∀ {s pre post : List Char},
    findDash s = some (pre, post) → s = pre ++ dashSep ++ post := by
  intro s
  induction s with
  | nil => intro pre post h; cases h
  | cons c cs ih =>
    intro pre post h
    unfold findDash at h
    by_cases hp : dashSep.isPrefixOf (c :: cs) = true
    · rw [if_pos hp] at h
      injection h with h2
      obtain ⟨hpre, hpost⟩ := Prod.mk.inj h2
      obtain ⟨t, ht⟩ := List.isPrefixOf_iff_prefix.mp hp
      have hdrop : List.drop 2 cs = t := by
        have h3 := congrArg (List.drop 3) ht
        rw [List.drop_left' (show dashSep.length = 3 from rfl)] at h3
        exact h3.symm
      rw [← hpre, ← hpost, hdrop]
      simpa using ht.symm
    · rw [if_neg hp] at h
      rcases hfd : findDash cs with _ | ⟨pre2, post2⟩
      · rw [hfd] at h
        cases h
      · rw [hfd] at h
        injection h with h2
        obtain ⟨hpre, hpost⟩ := Prod.mk.inj h2
        rw [← hpre, ← hpost]
        simp only [List.cons_append]
        rw [ih hfd]

theorem findDash_contains : ∀ {s : List Char} {pp : List Char × List Char},
    findDash s = some pp → containsSub s dashSep = true := by
  intro s
  induction s with
  | nil => intro pp h; cases h
  | cons c cs ih =>
    intro pp h
    unfold findDash at h
    unfold containsSub
    by_cases hp : dashSep.isPrefixOf (c :: cs) = true
    · rw [hp]
      rfl
    · rw [if_neg hp] at h
      rcases hfd : findDash cs with _ | pp2
      · rw [hfd] at h
        cases h
      · rw [ih hfd]
        simp

theorem splitDashAux_rel : ∀ (n : Nat) (s : List Char), s.length ≤ n → ∀ acc : List Char,
    splitDashAux acc s =
      match findDash s with
      | none => [acc.reverse ++ s]
      | some (pre, post) => (acc.reverse ++ pre) :: splitDashAux [] post := by
  intro n
  induction n with
  | zero =>
    intro s hs acc
    rw [List.length_eq_zero.mp (Nat.le_zero.mp hs)]
    simp [splitDashAux, findDash]
  | succ n ih =>
    intro s hs acc
    rcases s with _ | ⟨c, cs⟩
    · simp [splitDashAux, findDash]
    · by_cases hp : dashSep.isPrefixOf (c :: cs) = true
      · rw [show splitDashAux acc (c :: cs) =
          acc.reverse :: splitDashAux [] (cs.drop 2) by
            conv_lhs => unfold splitDashAux
            rw [if_pos hp]]
        rw [show findDash (c :: cs) = some ([], cs.drop 2) by
          unfold findDash
          rw [if_pos hp]]
        simp
      · rw [show splitDashAux acc (c :: cs) = splitDashAux (c :: acc) cs by
          conv_lhs => unfold splitDashAux
          rw [if_neg hp]]
        rw [show findDash (c :: cs) =
          match findDash cs with
          | some (pre, post) => some (c :: pre, post)
          | none => none by
            conv_lhs => unfold findDash
            rw [if_neg hp]]
        have hlen : cs.length ≤ n := by
          simp only [List.length_cons] at hs
          omega
        rw [ih cs hlen (c :: acc)]
        rcases hfd : findDash cs with _ | ⟨pre, post⟩
        · simp
        · simp

theorem splitDash_some {s pre post : List Char} (h : findDash s = some (pre, post)) :
    splitDash s = pre :: splitDash post := by
  unfold splitDash
  rw [splitDashAux_rel s.length s le_rfl [], h]
  simp

theorem splitDash_none {s : List Char} (h : findDash s = none) : splitDash s = [s] := by
  unfold splitDash
  rw [splitDashAux_rel s.length s le_rfl [], h]
  simp

theorem splitDash_ne_nil (s : List Char) : splitDash s ≠ [] := by
  rcases h : findDash s with _ | ⟨pre, post⟩
  · rw [splitDash_none h]
    simp
  · rw [splitDash_some h]
    simp

theorem joinDash_splitDash_n : ∀ (n : Nat) (s : List Char), s.length ≤ n →
    joinDash (splitDash s) = s := by
  intro n
  induction n with
  | zero =>
    intro s hs
    rw [List.length_eq_zero.mp (Nat.le_zero.mp hs)]
    rw [splitDash_none (show findDash [] = none from rfl)]
    rfl
  | succ n ih =>
    intro s hs
    rcases h : findDash s with _ | ⟨pre, post⟩
    · rw [splitDash_none h]
      rfl
    · have hdec := findDash_decomp h
      have hlen : post.length ≤ n := by
        have := congrArg List.length hdec
        simp [dashSep] at this
        omega
      rw [splitDash_some h]
      obtain ⟨r0, rs, hr⟩ := List.exists_cons_of_ne_nil (splitDash_ne_nil post)
      rw [hr]
      show pre ++ dashSep ++ joinDash (r0 :: rs) = s
      rw [← hr, ih post hlen]
      exact hdec.symm

theorem joinDash_splitDash (s : List Char) : joinDash (splitDash s) = s :=
  joinDash_splitDash_n s.length s le_rfl

theorem classRunLen_clean : ∀ {A : List Char} (B : List Char),
    (∀ c ∈ A, isAsciiAlphanum c = true) → classRunLen (A ++ '-' :: B) = A.length := by
  intro A
  induction A with
  | nil =>
    intro B _
    rw [List.nil_append]
    simp [classRunLen, show isTitleClassChar '-' = false from rfl]
  | cons a as ih =>
    intro B hA
    rw [List.cons_append]
    have ha : isTitleClassChar a = true := by
      simp [isTitleClassChar, hA a (by simp)]
    simp [classRunLen, ha, ih B fun c hc => hA c (List.mem_cons_of_mem a hc)]

theorem matchHyphen_clean {A B : List Char} (hA1 : A ≠ [])
    (hA : ∀ c ∈ A, isAsciiAlphanum c = true) (hB1 : B ≠ []) (hB : ∀ c ∈ B, plainChar c) :
    matchHyphen (A ++ '-' :: B) = some (A, B) := by
  obtain ⟨a, as, rfl⟩ := List.exists_cons_of_ne_nil hA1
  obtain ⟨b, bs, rfl⟩ := List.exists_cons_of_ne_nil hB1
  unfold matchHyphen
  rw [classRunLen_clean (b :: bs) hA]
  rw [show (a :: as).length = as.length + 1 from rfl]
  conv_lhs => unfold hyphenLoop
  rw [show List.drop (as.length + 1) ((a :: as) ++ '-' :: (b :: bs)) = '-' :: (b :: bs) from
    List.drop_left' (by simp)]
  rw [dropWhile_cons_false (show isJsSpace '-' = false from rfl)]
  show (match g2Loop (b :: bs) (wsLen (b :: bs)) with
      | some g2 => some (List.take (as.length + 1) ((a :: as) ++ '-' :: (b :: bs)), g2)
      | none => none).elim
      (hyphenLoop ((a :: as) ++ '-' :: (b :: bs)) as.length) some = some (a :: as, b :: bs)
  rw [wsLen_cons_false (plainChar_not_ws (hB b (by simp)))]
  rw [show g2Loop (b :: bs) 0 = some (b :: bs) by
    unfold g2Loop
    rw [if_pos]
    rw [Bool.and_eq_true]
    constructor
    · simp
    · rw [List.all_eq_true]
      intro c hc
      simp [plainChar_not_lt (hB c hc)]]
  show some (List.take (as.length + 1) ((a :: as) ++ '-' :: (b :: bs)), b :: bs) =
    some (a :: as, b :: bs)
  rw [List.take_left' (by simp)]

/-- C6 (amended): the splitter's tie-break cascade, with rule 1 corrected
to split at the first middle-dot.  (1) A title of the form `X · Y` or
`【X·Y】` with `X`, `Y` nonempty and free of whitespace, `·`, `【`, `】`
(the lazy first capture splits at the first middle-dot, so decompositions
whose `X` contains `·` do not follow the claimed form - see the
counterexample) splits as `engName = X`, `cnName = Y`, both trimmed.
(2) When the dot pattern does not match and `" - "` occurs, the split is
on the first occurrence: `engName` is the trimmed text before it and
`cnName` the trimmed text after it (later occurrences rejoined).  (3) When
neither of those applies, a leading alphanumeric run followed by a bare
hyphen yields that split. -/
theorem C6_title_cascade :
    (∀ X Y : List Char, X ≠ [] → Y ≠ [] → (∀ c ∈ X, plainChar c) → (∀ c ∈ Y, plainChar c) →
      splitTitle (X ++ ' ' :: '·' :: ' ' :: Y) = ⟨X, Y⟩ ∧
      splitTitle ('【' :: (X ++ '·' :: (Y ++ ['】']))) = ⟨X, Y⟩) ∧
    (∀ s pre post : List Char, trimJs s = s → matchDot s = none →
      findDash s = some (pre, post) →
      splitTitle s = ⟨trimJs pre, trimJs post⟩) ∧
    (∀ A B : List Char, A ≠ [] → B ≠ [] → (∀ c ∈ A, isAsciiAlphanum c = true) →
      (∀ c ∈ B, plainChar c) →
      matchDot (A ++ '-' :: B) = none → containsSub (A ++ '-' :: B) dashSep = false →
      splitTitle (A ++ '-' :: B) = ⟨A, B⟩) := by
  refine ⟨?_, ?_, ?_⟩
  · intro X Y hX hY hpX hpY
    constructor
    · have htrim : trimJs (X ++ ' ' :: '·' :: ' ' :: Y) = X ++ ' ' :: '·' :: ' ' :: Y := by
        apply trimJs_eq_self_of_ends
        · intro a ha
          obtain ⟨x, xs, rfl⟩ := List.exists_cons_of_ne_nil hX
          rw [List.cons_append, List.head?_cons] at ha
          injection ha with h
          rw [← h]
          exact plainChar_not_ws (hpX x (by simp))
        · intro a ha
          obtain ⟨ys, y, rfl⟩ := (List.eq_nil_or_concat Y).resolve_left hY
          rw [List.concat_eq_append] at ha
          rw [show X ++ ' ' :: '·' :: ' ' :: (ys ++ [y]) =
            (X ++ ' ' :: '·' :: ' ' :: ys) ++ [y] by simp] at ha
          rw [List.getLast?_concat] at ha
          injection ha with h
          rw [← h]
          exact plainChar_not_ws (hpY y (by simp))
      simp only [splitTitle, htrim, matchDot_space hX hpX hY hpY, trimJs_plain hpX,
        trimJs_plain hpY]
    · have htrim : trimJs ('【' :: (X ++ '·' :: (Y ++ ['】']))) =
          '【' :: (X ++ '·' :: (Y ++ ['】'])) := by
        apply trimJs_eq_self_of_ends
        · intro a ha
          rw [List.head?_cons] at ha
          injection ha with h
          rw [← h]
          rfl
        · intro a ha
          rw [show ('【' :: (X ++ '·' :: (Y ++ ['】'])) : List Char) =
            ('【' :: (X ++ '·' :: Y)) ++ ['】'] by simp] at ha
          rw [List.getLast?_concat] at ha
          injection ha with h
          rw [← h]
          rfl
      simp only [splitTitle, htrim, matchDot_bracket hX hpX hY hpY, trimJs_plain hpX,
        trimJs_plain hpY]
  · intro s pre post hs hdot hfind
    simp only [splitTitle, hs, hdot, findDash_contains hfind, if_true,
      splitDash_some hfind, joinDash_splitDash]
  · intro A B hA1 hB1 hA hB hdot hcont
    have htrim : trimJs (A ++ '-' :: B) = A ++ '-' :: B := by
      apply trimJs_eq_self_of_ends
      · intro a ha
        obtain ⟨a0, as, rfl⟩ := List.exists_cons_of_ne_nil hA1
        rw [List.cons_append, List.head?_cons] at ha
        injection ha with h
        rw [← h]
        exact alnum_not_ws (hA a0 (by simp))
      · intro g hg
        obtain ⟨bs, b, rfl⟩ := (List.eq_nil_or_concat B).resolve_left hB1
        rw [List.concat_eq_append] at hg
        rw [show A ++ '-' :: (bs ++ [b]) = (A ++ '-' :: bs) ++ [b] by simp] at hg
        rw [List.getLast?_concat] at hg
        injection hg with h
        rw [← h]
        exact plainChar_not_ws (hB b (by simp))
    simp only [splitTitle, htrim, hdot, hcont, matchHyphen_clean hA1 hA hB1 hB,
      trimJs_plain hB, trimJs_all_not_ws (fun c hc => alnum_not_ws (hA c hc)),
      Bool.false_eq_true, if_false]

/-- C6 counterexample: the title `A·B · C` is of the claimed form `X · Y`
(its unique spaced decomposition is `X = A·B`, `Y = C`), but the lazy
first capture of strategy 1 splits at the first middle-dot, yielding
`engName = A`, `cnName = B · C` rather than `engName = A·B`,
`cnName = C` - the claim's universal, which has no side conditions, is
false on the source. -/
theorem C6_counterexample :
    splitTitle ['A', '·', 'B', ' ', '·', ' ', 'C'] =
      ⟨['A'], ['B', ' ', '·', ' ', 'C']⟩ ∧
    ¬ splitTitle ['A', '·', 'B', ' ', '·', ' ', 'C'] = ⟨['A', '·', 'B'], ['C']⟩ := by
  constructor
  · decide
  · decide

/-- C6 witness: the four cascade rules at concrete titles. -/
theorem C6_witness :
    splitTitle ['A', ' ', '·', ' ', 'B'] = ⟨['A'], ['B']⟩ ∧
    splitTitle ['【', 'A', '·', 'B', '】'] = ⟨['A'], ['B']⟩ ∧
    splitTitle ['a', ' ', '-', ' ', 'b'] = ⟨['a'], ['b']⟩ ∧
    splitTitle ['Z', '-', 'c'] = ⟨['Z'], ['c']⟩ :=
  ⟨(C6_title_cascade.1 ['A'] ['B'] (by decide) (by decide) (by decide) (by decide)).1,
   (C6_title_cascade.1 ['A'] ['B'] (by decide) (by decide) (by decide) (by decide)).2,
   C6_title_cascade.2.1 ['a', ' ', '-', ' ', 'b'] ['a'] ['b'] (by decide) (by decide)
     (by decide),
   C6_title_cascade.2.2 ['Z'] ['c'] (by decide) (by decide) (by decide) (by decide)
     (by decide) (by decide)⟩

/-- C7: the splitter is total (it is a function, and it maps the empty title
to empty parts without failing); on any title where none of the three
separator rules matches it returns `engName = ""` and `cnName` equal to the
trimmed input; and it is idempotent there: splitting the returned `cnName`
again gives the same result. -/
theorem C7_total_idempotent :
    splitTitle [] = ⟨[], []⟩ ∧
    (∀ s : List Char, matchDot (trimJs s) = none →
      containsSub (trimJs s) dashSep = false → matchHyphen (trimJs s) = none →
      splitTitle s = ⟨[], trimJs s⟩ ∧ splitTitle ((splitTitle s).cnName) = splitTitle s) := by
  constructor
  · rfl
  · intro s h1 h2 h3
    have hsplit : splitTitle s = ⟨[], trimJs s⟩ := by
      simp only [splitTitle, h1, h2, h3, Bool.false_eq_true, if_false]
    refine ⟨hsplit, ?_⟩
    rw [hsplit]
    show splitTitle (trimJs s) = (⟨[], trimJs s⟩ : TitleParts)
    have hidem := trimJs_idem s
    have h1b : matchDot (trimJs (trimJs s)) = none := by rw [hidem]; exact h1
    have h2b : containsSub (trimJs (trimJs s)) dashSep = false := by rw [hidem]; exact h2
    have h3b : matchHyphen (trimJs (trimJs s)) = none := by rw [hidem]; exact h3
    have hsplit2 : splitTitle (trimJs s) = ⟨[], trimJs (trimJs s)⟩ := by
      simp only [splitTitle, h1b, h2b, h3b, Bool.false_eq_true, if_false]
    rw [hsplit2, hidem]

/-- C7 witness: a separator-free (purely non-Latin) title maps to empty
`engName` with the input as `cnName`, and re-splitting the `cnName` is
stable. -/
theorem C7_witness :
    splitTitle ['插', '件'] = ⟨[], ['插', '件']⟩ ∧
    splitTitle ((splitTitle ['插', '件']).cnName) = splitTitle ['插', '件'] :=
  C7_total_idempotent.2 ['插', '件'] (by decide) (by decide) (by decide)

end RustSB
